import Mathlib

/-!
Verification development for the `samtag` program (`src/main.cpp`).

The C++ source is shallowly embedded below.  Machine integers are modelled
as `Int`/`Nat` (with explicit `% 65536` where a cast to `uint16_t` occurs),
`std::string` values as Lean `String`/`List Char` (the inputs are byte
strings; each `Char` stands for one byte), fallible code as `Except`,
and the C `float` tag values as exact rationals (no claim below depends
on floating-point rounding).  External collaborators (htslib record I/O,
`std::regex`) are abstracted: a compiled regular expression is modelled as
an opaque match predicate `String → Bool`, which is exactly how the
program itself consumes it (a single call to `std::regex_search`).
-/

namespace Samtag

/-! ## Interval model (`hts_pair_pos_t`, stats mode region handling) -/

/-- Half-open genomic interval; models `hts_pair_pos_t` with fields
`beg` and `end` (the latter renamed `end_`, since `end` is a Lean keyword). -/
structure Interval where
  beg : Int
  end_ : Int
deriving DecidableEq, Repr

/-- The strict comparison `operator<` on `hts_pair_pos_t` (main.cpp:373-376):
lexicographic on `(beg, end)`. -/
def intervalLT (a b : Interval) : Prop :=
  a.beg < b.beg ∨ (a.beg = b.beg ∧ a.end_ < b.end_)

/-- The reflexive total order induced by `operator<`; `std::sort` with
`operator<` produces a sequence sorted with respect to this relation. -/
def intervalLE (a b : Interval) : Prop :=
  a.beg < b.beg ∨ (a.beg = b.beg ∧ a.end_ ≤ b.end_)

instance : DecidableRel intervalLE := fun a b =>
  inferInstanceAs (Decidable (a.beg < b.beg ∨ (a.beg = b.beg ∧ a.end_ ≤ b.end_)))

instance : IsTotal Interval intervalLE :=
  ⟨fun a b => by unfold intervalLE; omega⟩

instance : IsTrans Interval intervalLE :=
  ⟨fun a b c => by unfold intervalLE; omega⟩

/-- The sweep loop of `merge` (main.cpp:418-428) followed by the final
unconditional `push_back` (main.cpp:429).  The C++ loop keeps three
iterators; only `overlapped->beg` (here `ob`), `rightmost->end` (here `re`)
and `result.back().end` are ever read, so the state is `(result, ob, re)`.
The guard mirrors `result.empty() || result.back().end != rightmost->end`. -/
def mergeLoop : List Interval → List Interval → Int → Int → List Interval
  | [], result, ob, re => result ++ [⟨ob, re⟩]
  | c :: rest, result, ob, re =>
    if re < c.beg then
      mergeLoop rest
        (if result = [] ∨ ¬ (result.getLast?.map Interval.end_ = some re)
          then result ++ [⟨ob, re⟩] else result)
        c.beg c.end_
    else if re ≤ c.end_ then
      mergeLoop rest result ob c.end_
    else
      mergeLoop rest result ob re

/-- `merge` (main.cpp:410-431).  The C++ loop starts with
`current = overlapped = rightmost = cbegin(intervals)`, so the first
element is itself processed by the loop body. -/
def merge (intervals : List Interval) : List Interval :=
  match intervals with
  | [] => []
  | first :: _ => mergeLoop intervals [] first.beg first.end_

/-- Per-contig body of `get_nonoverlapping_regions_by_contig`
(main.cpp:433-441): `std::sort` by `operator<`, then `merge`.
`std::sort` under the strict weak order `intervalLT` yields the unique
`intervalLE`-sorted permutation (the order is antisymmetric), which
`List.insertionSort intervalLE` also computes. -/
def mergeRegions (intervals : List Interval) : List Interval :=
  merge (List.insertionSort intervalLE intervals)

/-- Membership of a coordinate in a half-open interval. -/
def memI (x : Int) (I : Interval) : Prop :=
  I.beg ≤ x ∧ x < I.end_

instance (x : Int) (I : Interval) : Decidable (memI x I) :=
  inferInstanceAs (Decidable (I.beg ≤ x ∧ x < I.end_))

/-- A coordinate is covered by a list of intervals. -/
def covers (l : List Interval) (x : Int) : Prop :=
  ∃ I ∈ l, memI x I

instance (l : List Interval) (x : Int) : Decidable (covers l x) :=
  inferInstanceAs (Decidable (∃ I ∈ l, memI x I))

/-- Pairwise disjointness of the coordinate sets of a list of intervals. -/
def disjointIntervals (l : List Interval) : Prop :=
  l.Pairwise fun a b => ∀ x : Int, ¬ (memI x a ∧ memI x b)

/-- Strict gap between two adjacent intervals (`previous.end < next.begin`). -/
def gapped (a b : Interval) : Prop :=
  a.end_ < b.beg

instance : DecidableRel gapped := fun a b =>
  inferInstanceAs (Decidable (a.end_ < b.beg))

/-! ## Tag model (`Tag`, `get_tag_value`, `get_tag`, `add_tag`) -/

/-- A tag value, modelling `Tag::Value = std::variant<std::string_view, long, float>`.
The `float` alternative is modelled as an exact rational. -/
inductive TagValue where
  | str (s : String)
  | int (i : Int)
  | real (q : ℚ)
deriving DecidableEq, Repr

/-- A tag, modelling `struct Tag` (main.cpp:116-122): two-character
identifier plus typed value.  A default-constructed value is the empty
string (`std::string_view {}`). -/
structure Tag where
  id : String
  value : TagValue
deriving DecidableEq, Repr

/-- Model of `std::stol` on the prefix of a character list: skip leading
whitespace, optional sign, then a non-empty run of digits (trailing
characters are ignored, as `stol` stops at the first non-digit).
`none` models the `std::invalid_argument` exception. -/
def parseLong (cs : List Char) : Option Int :=
  let cs := cs.dropWhile (fun c => c = ' ' ∨ c = '\t')
  let (sign, cs) : Int × List Char :=
    match cs with
    | '-' :: rest => (-1, rest)
    | '+' :: rest => (1, rest)
    | _ => (1, cs)
  let digits := cs.takeWhile Char.isDigit
  if digits = [] then none
  else some (sign * digits.foldl (fun acc c => 10 * acc + (c.toNat - 48 : ℤ)) 0)

/-- Model of `std::stof` on the prefix of a character list, restricted to
plain decimal notation `[sign]digits[.digits]` (an exponent suffix and hex
floats are not modelled; no claim depends on them).  The parsed value is
kept as an exact rational rather than a rounded binary float. -/
def parseDec (cs : List Char) : Option ℚ :=
  let cs := cs.dropWhile (fun c => c = ' ' ∨ c = '\t')
  let (sign, cs) : ℚ × List Char :=
    match cs with
    | '-' :: rest => (-1, rest)
    | '+' :: rest => (1, rest)
    | _ => (1, cs)
  let intDigits := cs.takeWhile Char.isDigit
  let rest := cs.drop intDigits.length
  let fracDigits :=
    match rest with
    | '.' :: rest2 => rest2.takeWhile Char.isDigit
    | _ => []
  if intDigits = [] ∧ fracDigits = [] then none
  else
    let ip : ℚ := (intDigits.foldl (fun acc c => 10 * acc + (c.toNat - 48 : ℤ)) 0 : ℤ)
    let fp : ℚ := (fracDigits.foldl (fun acc c => 10 * acc + (c.toNat - 48 : ℤ)) 0 : ℤ)
    some (sign * (ip + fp / (10 : ℚ) ^ fracDigits.length))

/-- `get_tag_value` (main.cpp:124-135): values without a decimal point are
parsed with `stol`, values with one via `stof`; a parse failure
(`std::invalid_argument`) falls back to the raw text. -/
def get_tag_value (value : String) : TagValue :=
  if value.toList.contains '.' then
    match parseDec value.toList with
    | some q => .real q
    | none => .str value
  else
    match parseLong value.toList with
    | some i => .int i
    | none => .str value

/-- `get_tag` (main.cpp:137-149).  The error case models
`std::clog << "Invalid tag ..." << ...; exit(1)`. -/
def get_tag (tag : String) : Except String Tag :=
  let cs := tag.toList
  if cs.length < 2 ∨ cs.length = 3 ∨ (cs.length > 3 ∧ ¬ (cs.get? 2 = some ':')) then
    .error ("Invalid tag " ++ tag ++ " (required TAG:VALUE)")
  else
    .ok { id := String.mk (cs.take 2)
        , value := if cs.length > 3 then get_tag_value (String.mk (cs.drop 3)) else .str "" }

/-- An alignment record, modelling the parts of `bam1_t` the program
touches: the read name (`bam_get_qname`), the 16-bit flag word
(`core.flag`) and the auxiliary tag list (`bam_aux_*`). -/
structure SamRec where
  qname : String
  flag : Nat
  tags : List (String × TagValue)
deriving DecidableEq, Repr

/-- The common behaviour of `bam_aux_update_int` / `_float` / `_str`:
replace an existing auxiliary tag with the same identifier, otherwise
append a new one. -/
def updateAux (id : String) (v : TagValue) (tags : List (String × TagValue)) :
    List (String × TagValue) :=
  if tags.any (fun t => t.1 = id) then
    tags.map (fun t => if t.1 = id then (id, v) else t)
  else
    tags ++ [(id, v)]

/-- `add_tag` (main.cpp:153-169): dispatch on the value alternative; an
empty textual value writes nothing. -/
def add_tag (tag : Tag) (rec : SamRec) : SamRec :=
  match tag.value with
  | .int i => { rec with tags := updateAux tag.id (.int i) rec.tags }
  | .real q => { rec with tags := updateAux tag.id (.real q) rec.tags }
  | .str s => if s = "" then rec else { rec with tags := updateAux tag.id (.str s) rec.tags }

/-! ## Edit store (`load_reads`) -/

/-- First-match lookup in an association list; models
`std::unordered_map::find`. -/
def mapFind (m : List (String × String)) (k : String) : Option String :=
  (m.find? (fun e => e.1 = k)).map (fun e => e.2)

/-- A single `std::unordered_map::insert`: a no-op when the key is already
present (the range constructor used by `load_reads` inserts the loaded
pairs one by one with exactly this semantics). -/
def mapInsert (m : List (String × String)) (kv : String × String) :
    List (String × String) :=
  if (m.find? (fun e => e.1 = kv.1)).isSome then m else m ++ [kv]

/-- The `ReadNameMap` constructor call at main.cpp:110-113: insert the
loaded `(name, payload)` pairs in file order. -/
def buildReadNameMap (pairs : List (String × String)) : List (String × String) :=
  pairs.foldl mapInsert []

/-- Line splitting in `load_reads` (main.cpp:100-109): skip empty lines,
strip one trailing carriage return, split at the first tab (key before it;
payload after it, or empty when there is no tab).  The input stream is
modelled as its list of lines (`std::getline`). -/
def loadReadsPairs (lines : List String) : List (String × String) :=
  lines.foldr
    (fun line acc =>
      if line = "" then acc
      else
        let cs := line.toList
        let cs := if cs.getLast? = some '\r' then cs.dropLast else cs
        let key := cs.takeWhile (fun c => ¬ c = '\t')
        let restc := cs.drop key.length
        let payload :=
          match restc with
          | '\t' :: r => String.mk r
          | _ => ""
        (String.mk key, payload) :: acc)
    []

/-- `load_reads` (main.cpp:92-114): parse the lines, then build the
`unordered_map` from the pair range. -/
def load_reads (lines : List String) : List (String × String) :=
  buildReadNameMap (loadReadsPairs lines)

/-! ## Tagging mode (`tag_reads`) -/

/-- Split a character list at its first tab, modelling
`edits.find('\t')` / `edits.substr(...)` in main.cpp:215-224.  Returns the
part before the tab and, when a tab exists, the part after it. -/
def splitFirstTab : List Char → List Char × Option (List Char)
  | [] => ([], none)
  | c :: cs =>
    if c = '\t' then ([], some cs)
    else
      let (a, b) := splitFirstTab cs
      (c :: a, b)

/-- The `static_cast<std::uint16_t>` applied to the `stoi` result at
main.cpp:218. -/
def toUInt16 (n : Int) : Nat :=
  (n % 65536).toNat

/-- The parse of one non-empty edit entry (main.cpp:214-232): split at the
first tab; a flag literal is fed through `stoi` and a `uint16_t` cast, and
OR-combined with the base flag (main.cpp:217-224); then the tag payload
either becomes the default tag value (main.cpp:227-228) or is parsed as an
independent tag and appended (main.cpp:230). -/
def processEdits (setDefault : Bool) (baseFlag : Option Nat) (st : List Tag)
    (edits : String) : Except String (Option Nat × List Tag) :=
  match splitFirstTab edits.toList with
  | (tagChars, flagPart) =>
    match (match flagPart with
           | none => Except.ok baseFlag
           | some fchars =>
             match parseLong fchars with
             | none => Except.error "stoi: invalid argument"
             | some n =>
               match baseFlag with
               | some r => Except.ok (some (r ||| toUInt16 n))
               | none => Except.ok (some (toUInt16 n))) with
    | .error e => .error e
    | .ok readFlag1 =>
      if setDefault then
        match st with
        | t :: rest =>
          .ok (readFlag1, { t with value := get_tag_value (String.mk tagChars) } :: rest)
        | [] => .ok (readFlag1, [])
      else
        match get_tag (String.mk tagChars) with
        | .error e => .error e
        | .ok tg => .ok (readFlag1, st ++ [tg])

/-- The body of the `tag_reads` read loop (main.cpp:209-253) for one
record.  `st` is the mutable `tags` vector carried across records,
`setDefault` is `set_default_tag_value`, `baseTagGiven` is `bool(tag)` and
`baseFlag` is the `-f` option.  Errors model `exit(1)` inside `get_tag`
and the uncaught `std::invalid_argument` of `stoi`; both abort before the
record is written.  After the edits are applied the record is rebuilt:
flags OR-combined (main.cpp:233-235), every accumulated tag applied
(main.cpp:239-241), and the accumulator reset (main.cpp:242-246). -/
def processRecord (readNames : List (String × String)) (baseTagGiven setDefault : Bool)
    (baseFlag : Option Nat) (st : List Tag) (rec : SamRec) :
    Except String (SamRec × List Tag) :=
  match mapFind readNames rec.qname with
  | none => .ok (rec, st)
  | some edits =>
    match (if edits = "" then Except.ok (baseFlag, st)
           else processEdits setDefault baseFlag st edits) with
    | .error e => .error e
    | .ok (readFlag, st2) =>
      .ok (st2.foldl (fun r t => add_tag t r)
            (match readFlag with
             | some f => { rec with flag := rec.flag ||| f }
             | none => rec)
         , if baseTagGiven then st2.take 1 else [])

/-- The `sam_read1`/`sam_write1` loop of `tag_reads`: records are written
in order as they are processed; a fatal error stops the run before the
offending record is written. -/
def tagReadsLoop (readNames : List (String × String)) (baseTagGiven setDefault : Bool)
    (baseFlag : Option Nat) : List SamRec → List Tag → List SamRec × Option String
  | [], _ => ([], none)
  | r :: rs, st =>
    match processRecord readNames baseTagGiven setDefault baseFlag st r with
    | .error e => ([], some e)
    | .ok (r', st') =>
      let (out, err) := tagReadsLoop readNames baseTagGiven setDefault baseFlag rs st'
      (r' :: out, err)

/-- `tag_reads` (main.cpp:171-260): initialise the tag accumulator from the
optional base tag, compute `set_default_tag_value` (main.cpp:194-202: true
exactly when the base tag holds the string alternative and it is empty),
then stream the records.  Returns the emitted records and `some error`
when the run aborted. -/
def tag_reads (readNames : List (String × String)) (records : List SamRec)
    (tag : Option Tag) (flag : Option Nat) : List SamRec × Option String :=
  let st : List Tag := match tag with | some t => [t] | none => []
  let setDefault : Bool :=
    match tag with
    | some ⟨_, .str s⟩ => s = ""
    | _ => false
  tagReadsLoop readNames tag.isSome setDefault flag records st

/-! ## Stats mode (`SearchTag`, `TagStats`, `add_read`, `write`) -/

/-- `struct SearchTag` (main.cpp:490-495).  The compiled `std::regex` is
modelled as an opaque match predicate (the program only ever calls
`std::regex_search(value, *tag.pattern)` on it). -/
structure SearchTag where
  id : String
  value : Option String
  pattern : Option (String → Bool)

/-- `operator==` on `SearchTag` (main.cpp:497-500): identifier and literal
value only; the pattern is not compared.  `SearchTagHash` hashes the same
two fields. -/
def searchTagEq (a b : SearchTag) : Bool :=
  a.id = b.id ∧ a.value = b.value

/-- `parse_search_tag` (main.cpp:665-678), with the same size/colon guard
as `get_tag`.  `compile` stands for `std::regex` construction. -/
def parse_search_tag (compile : String → String → Bool) (tag : String) :
    Except String SearchTag :=
  let cs := tag.toList
  if cs.length < 2 ∨ cs.length = 3 ∨ (cs.length > 3 ∧ ¬ (cs.get? 2 = some ':')) then
    .error ("Invalid tag " ++ tag ++ " (required TAG[:VALUE])")
  else if cs.length > 3 then
    .ok { id := String.mk (cs.take 2)
        , value := some (String.mk (cs.drop 3))
        , pattern := some (compile (String.mk (cs.drop 3))) }
  else
    .ok { id := String.mk (cs.take 2), value := none, pattern := none }

/-- `struct TagStats` (main.cpp:534-539): the per-spec count map, the
optional value-specialised map (present exactly in split mode) and the
total of admitted records.  The unordered maps are modelled as association
lists under the key equality `searchTagEq`. -/
structure TagStats where
  counts : List (SearchTag × Nat)
  value_counts : Option (List (SearchTag × Nat))
  total_reads : Nat

/-- `bam_aux_get`: look up an auxiliary tag on a record by identifier. -/
def bamAuxGet (read : SamRec) (id : String) : Option TagValue :=
  (read.tags.find? (fun t => t.1 = id)).map (fun t => t.2)

/-- `bam_aux2Z`: the stored value as text when it has the string type,
otherwise a null pointer (`none`). -/
def bamAux2Z : TagValue → Option String
  | .str s => some s
  | _ => none

/-- The rendering of a rational tag value, standing for
`std::to_string(float)` (C `%f` formatting is abstracted; no claim
inspects the rendered text of a float). -/
def formatReal (q : ℚ) : String :=
  toString q

/-- The `switch (*p)` stringification at main.cpp:561-565 ('Z', 'i', 'f';
any other type tag leaves `value` empty — unreachable in this model, whose
`TagValue` has exactly those three alternatives). -/
def stringifyAux : TagValue → String
  | .str s => s
  | .int i => toString i
  | .real q => formatReal q

/-- `++map[key]` on a `TagCountMap`: increment the entry whose key is
`searchTagEq`-equal (the stored key object is kept), or default-insert the
key with count 0 and increment it. -/
def bump : List (SearchTag × Nat) → SearchTag → List (SearchTag × Nat)
  | [], key => [(key, 1)]
  | e :: rest, key =>
    if searchTagEq e.1 key then (e.1, e.2 + 1) :: rest
    else e :: bump rest key

/-- Per-entry body of the `add_read` loop (main.cpp:543-572), traversing
`stats.counts` while threading the optional value-count map. -/
def addReadCounts (read : SamRec) :
    List (SearchTag × Nat) → Option (List (SearchTag × Nat)) →
    List (SearchTag × Nat) × Option (List (SearchTag × Nat))
  | [], vcs => ([], vcs)
  | (tag, count) :: rest, vcs =>
    match bamAuxGet read tag.id with
    | none =>
      let (rest', vcs') := addReadCounts read rest vcs
      ((tag, count) :: rest', vcs')
    | some p =>
      match tag.pattern with
      | some pat =>
        match bamAux2Z p with
        | some value =>
          if pat value then
            let vcs1 := vcs.map (fun m => bump m { tag with value := some value })
            let (rest', vcs') := addReadCounts read rest vcs1
            ((tag, count + 1) :: rest', vcs')
          else
            let (rest', vcs') := addReadCounts read rest vcs
            ((tag, count) :: rest', vcs')
        | none =>
          let (rest', vcs') := addReadCounts read rest vcs
          ((tag, count) :: rest', vcs')
      | none =>
        let value := stringifyAux p
        let vcs1 := vcs.map (fun m => bump m { tag with value := some value })
        let (rest', vcs') := addReadCounts read rest vcs1
        ((tag, count + 1) :: rest', vcs')

/-- `add_read` (main.cpp:541-574): update every per-spec counter, then
increment `total_reads` unconditionally. -/
def add_read (read : SamRec) (stats : TagStats) : TagStats :=
  let (counts', vcs') := addReadCounts read stats.counts stats.value_counts
  { counts := counts', value_counts := vcs', total_reads := stats.total_reads + 1 }

/-- `init_stats` (main.cpp:762-773): one zero counter per declared search
tag (`emplace` keeps the first of `searchTagEq`-equal duplicates), and an
empty value-count map exactly in split mode. -/
def init_stats (tags : List SearchTag) (split : Bool) : TagStats :=
  { counts := tags.foldl
      (fun m t => if m.any (fun e => searchTagEq e.1 t) then m else m ++ [(t, 0)]) []
  , value_counts := if split then some [] else none
  , total_reads := 0 }

/-- Folding the admitted records of a run through `add_read`. -/
def runStats (tags : List SearchTag) (split : Bool) (recs : List SamRec) : TagStats :=
  recs.foldl (fun s r => add_read r s) (init_stats tags split)

/-! ## Report writer (`write`) -/

/-- One rendered data row of the stats report: tag id, value column
(`*` when the spec has no value), count and fraction.  The `float`
division at main.cpp:599 is modelled as exact rational division. -/
structure StatsRow where
  tag : String
  value : String
  count : Nat
  fraction : ℚ
deriving DecidableEq, Repr

/-- The `write_row` lambda (main.cpp:588-604). -/
def writeRow (total : Nat) (tag : SearchTag) (count : Nat) : StatsRow :=
  { tag := tag.id
  , value := tag.value.getD "*"
  , count := count
  , fraction := if total > 0 then (count : ℚ) / (total : ℚ) else 0 }

/-- The synthetic totals row `*,*,total,1` (main.cpp:587). -/
def totalRow (stats : TagStats) : StatsRow :=
  { tag := "*", value := "*", count := stats.total_reads, fraction := 1 }

/-- Comparator `count_greater` (main.cpp:612-614) as a total preorder for
the model sort. -/
def countGE (a b : SearchTag × Nat) : Prop :=
  b.2 ≤ a.2

instance : DecidableRel countGE := fun a b =>
  inferInstanceAs (Decidable (b.2 ≤ a.2))

/-- The data rows of `write(TagStats, ...)` (main.cpp:584-629): in unsorted
mode the per-spec rows followed by the value-specialised rows; in sorted
mode all rows together ordered by count descending (`std::sort` is not
stable and ties carry no order guarantee; the model picks one valid
order). -/
def writeStatsRows (stats : TagStats) (sorted : Bool) : List StatsRow :=
  let entries := stats.counts ++ stats.value_counts.getD []
  let entries := if sorted then List.insertionSort countGE entries else entries
  entries.map (fun e => writeRow stats.total_reads e.1 e.2)


/-! ## Specification helpers for the stats aggregator -/

/-- The increment `add_read` applies to one declared spec's counter for
one record: 1 when the tag is present and (in pattern mode) its string
value matches, else 0. -/
def hitInc (read : SamRec) (tag : SearchTag) : Nat :=
  match bamAuxGet read tag.id with
  | none => 0
  | some p =>
    match tag.pattern with
    | some pat =>
      match bamAux2Z p with
      | some v => if pat v then 1 else 0
      | none => 0
    | none => 1

/-- The aggregator state after the first `n` admitted records. -/
def statsAfter (tags : List SearchTag) (split : Bool) (recs : List SamRec)
    (n : Nat) : TagStats :=
  runStats tags split (recs.take n)

/-- First-match count lookup in a `TagCountMap` under the map's key
equality `searchTagEq` (identifier and literal value; 0 when absent). -/
def countOf (m : List (SearchTag × Nat)) (key : SearchTag) : Nat :=
  match m.find? (fun e => searchTagEq e.1 key) with
  | some e => e.2
  | none => 0

/-! ## Coverage lemmas -/

theorem covers_nil (x : Int) : covers [] x ↔ False := by
  simp [covers]

theorem covers_cons {a : Interval} {l : List Interval} {x : Int} :
    covers (a :: l) x ↔ memI x a ∨ covers l x := by
  simp [covers]

theorem covers_append {l m : List Interval} {x : Int} :
    covers (l ++ m) x ↔ covers l x ∨ covers m x := by
  simp only [covers, List.mem_append]
  constructor
  · rintro ⟨I, hI | hI, hm⟩
    · exact Or.inl ⟨I, hI, hm⟩
    · exact Or.inr ⟨I, hI, hm⟩
  · rintro (⟨I, hI, hm⟩ | ⟨I, hI, hm⟩)
    · exact ⟨I, Or.inl hI, hm⟩
    · exact ⟨I, Or.inr hI, hm⟩

theorem covers_mono {l m : List Interval} {x : Int}
    (hsub : ∀ I, I ∈ l → I ∈ m) (h : covers l x) : covers m x := by
  obtain ⟨I, hI, hm⟩ := h
  exact ⟨I, hsub I hI, hm⟩

/-! ## Chain and gap lemmas -/

theorem chain_gapped_pairwise : ∀ {l : List Interval},
    (∀ i ∈ l, i.beg ≤ i.end_) → l.Chain' gapped → l.Pairwise gapped := by
  intro l
  induction l with
  | nil => intro _ _; exact List.Pairwise.nil
  | cons a t ih =>
    intro hwf hc
    rcases List.chain'_cons'.mp hc with ⟨hhd, htl⟩
    have hpt : t.Pairwise gapped :=
      ih (fun i hi => hwf i (List.mem_cons_of_mem _ hi)) htl
    refine List.pairwise_cons.mpr ⟨?_, hpt⟩
    intro b hb
    match t, hb with
    | c :: t', hb =>
      have h1 : gapped a c := hhd c rfl
      have hcwf : c.beg ≤ c.end_ := hwf c (by simp)
      rcases List.mem_cons.mp hb with rfl | hb'
      · exact h1
      · have h2 : gapped c b := (List.pairwise_cons.mp hpt).1 b hb'
        unfold gapped at h1 h2 ⊢
        omega

theorem gapped_end_not_covered : ∀ {l : List Interval} {J : Interval},
    (∀ i ∈ l, i.beg < i.end_) → l.Pairwise gapped → J ∈ l → ¬ covers l J.end_ := by
  intro l
  induction l with
  | nil => intro J _ _ h; exact absurd h (List.not_mem_nil J)
  | cons a t ih =>
    intro J hwf hp hJ hcov
    rcases List.pairwise_cons.mp hp with ⟨hat, hpt⟩
    rcases covers_cons.mp hcov with hma | hct
    · -- J.end_ lies in a
      rcases List.mem_cons.mp hJ with rfl | hJt
      · exact absurd hma.2 (lt_irrefl _)
      · have h1 : gapped a J := hat J hJt
        have h2 : J.beg < J.end_ := hwf J (List.mem_cons_of_mem _ hJt)
        unfold gapped at h1
        unfold memI at hma
        omega
    · -- J.end_ covered by the tail
      rcases List.mem_cons.mp hJ with rfl | hJt
      · obtain ⟨I, hIt, hmI⟩ := hct
        have h1 : gapped J I := hat I hIt
        have h2 : J.beg < J.end_ := hwf J (List.mem_cons_self _ _)
        unfold gapped at h1
        unfold memI at hmI
        omega
      · exact ih (fun i hi => hwf i (List.mem_cons_of_mem _ hi)) hpt hJt hct

/-- Any list of intervals whose coverage contains the begins of a strictly
gapped list `M` of non-empty intervals, and avoids the ends of `M`, has at
least as many elements as `M`. -/
theorem gapped_length_min : ∀ (M L : List Interval),
    M.Chain' gapped → (∀ i ∈ M, i.beg < i.end_) →
    (∀ J ∈ M, covers L J.beg) → (∀ J ∈ M, ¬ covers L J.end_) →
    M.length ≤ L.length := by
  intro M
  induction M with
  | nil => intro L _ _ _ _; simp
  | cons J M' ih =>
    intro L hch hwf hbeg hgap
    obtain ⟨K, hKL, hKm⟩ := hbeg J (List.mem_cons_self _ _)
    obtain ⟨s, t, rfl⟩ := List.append_of_mem hKL
    have hJall : ∀ b ∈ M', gapped J b := by
      have hpw : (J :: M').Pairwise gapped :=
        chain_gapped_pairwise (fun i hi => le_of_lt (hwf i hi)) hch
      exact (List.pairwise_cons.mp hpw).1
    have hJwf : J.beg < J.end_ := hwf J (List.mem_cons_self _ _)
    have hchM' : M'.Chain' gapped := hch.tail
    have hwfM' : ∀ i ∈ M', i.beg < i.end_ :=
      fun i hi => hwf i (List.mem_cons_of_mem _ hi)
    have hbeg' : ∀ J' ∈ M', covers (s ++ t) J'.beg := by
      intro J' hJ'
      obtain ⟨K', hK', hK'm⟩ := hbeg J' (List.mem_cons_of_mem _ hJ')
      rcases List.mem_append.mp hK' with hK's | hK'Kt
      · exact ⟨K', List.mem_append.mpr (Or.inl hK's), hK'm⟩
      rcases List.mem_cons.mp hK'Kt with heq | hK't
      · -- K' = K would place J.end_ inside K, contradicting hgap
        exfalso
        rw [heq] at hK'm
        have h1 : gapped J J' := hJall J' hJ'
        have hKend : memI J.end_ K := by
          unfold memI at hKm hK'm ⊢
          unfold gapped at h1
          omega
        exact hgap J (List.mem_cons_self _ _) ⟨K, hKL, hKend⟩
      · exact ⟨K', List.mem_append.mpr (Or.inr hK't), hK'm⟩
    have hgap' : ∀ J' ∈ M', ¬ covers (s ++ t) J'.end_ := by
      intro J' hJ' hcov
      refine hgap J' (List.mem_cons_of_mem _ hJ') (covers_mono ?_ hcov)
      intro I hI
      rcases List.mem_append.mp hI with h | h
      · exact List.mem_append.mpr (Or.inl h)
      · exact List.mem_append.mpr (Or.inr (List.mem_cons_of_mem _ h))
    have := ih (s ++ t) hchM' hwfM' hbeg' hgap'
    simp only [List.length_cons, List.length_append] at this ⊢
    omega

/-! ## The merge sweep -/

theorem chain_concat_last {result : List Interval} {ob re : Int}
    (hch : List.Chain' gapped (result ++ [⟨ob, re⟩])) :
    ∀ y ∈ result.getLast?, y.end_ < ob := by
  obtain ⟨-, -, h⟩ := List.chain'_append.mp hch
  intro y hy
  exact h y hy ⟨ob, re⟩ rfl

theorem chain_concat_retarget {result : List Interval} {ob re re' : Int}
    (hch : List.Chain' gapped (result ++ [⟨ob, re⟩])) :
    List.Chain' gapped (result ++ [⟨ob, re'⟩]) := by
  obtain ⟨h1, -, h3⟩ := List.chain'_append.mp hch
  refine List.chain'_append.mpr ⟨h1, List.chain'_singleton _, ?_⟩
  intro y hy z hz
  have hz' : (⟨ob, re'⟩ : Interval) = z := by simpa using hz
  rw [← hz']
  exact h3 y hy ⟨ob, re⟩ rfl

theorem chain_concat_extend {result : List Interval} {a b : Interval}
    (hch : List.Chain' gapped (result ++ [a])) (hab : gapped a b) :
    List.Chain' gapped ((result ++ [a]) ++ [b]) := by
  refine List.chain'_append.mpr ⟨hch, List.chain'_singleton _, ?_⟩
  intro y hy z hz
  have hy' : a = y := by
    rw [List.getLast?_concat] at hy
    simpa using hy
  have hz' : b = z := by simpa using hz
  rw [← hy', ← hz']
  exact hab

theorem mergeLoop_guard {result : List Interval} {ob re : Int}
    (hch : List.Chain' gapped (result ++ [⟨ob, re⟩])) (hrun : ob < re) :
    (if result = [] ∨ ¬ (result.getLast?.map Interval.end_ = some re)
      then result ++ [⟨ob, re⟩] else result) = result ++ [⟨ob, re⟩] := by
  rw [if_pos]
  cases hres : result.getLast? with
  | none => exact Or.inl (List.getLast?_eq_none_iff.mp hres)
  | some y =>
    right
    have hlt : y.end_ < ob := chain_concat_last hch y hres
    simp only [Option.map_some']
    intro hcontra
    have : y.end_ = re := Option.some.inj hcontra
    omega

/-- Main invariant of the sweep: given the not-yet-processed suffix `M`
(sorted, non-empty intervals starting at or after `ob`), the emitted
prefix `result` (chained with a gap before the open run `[ob, re)`), the
loop emits a strictly gapped list of non-empty intervals covering exactly
`result`, the open run and `M`. -/
theorem mergeLoop_spec : ∀ (M result : List Interval) (ob re : Int),
    (∀ i ∈ M, i.beg < i.end_) →
    M.Pairwise intervalLE →
    (∀ i ∈ M, ob ≤ i.beg) →
    ob < re →
    List.Chain' gapped (result ++ [⟨ob, re⟩]) →
    (∀ i ∈ result, i.beg < i.end_) →
    List.Chain' gapped (mergeLoop M result ob re)
    ∧ (∀ i ∈ mergeLoop M result ob re, i.beg < i.end_)
    ∧ (∀ x, covers (mergeLoop M result ob re) x ↔
        covers result x ∨ (ob ≤ x ∧ x < re) ∨ covers M x) := by
  intro M
  induction M with
  | nil =>
    intro result ob re _ _ _ hrun hch hrwf
    refine ⟨hch, ?_, ?_⟩
    · intro i hi
      rcases List.mem_append.mp hi with h | h
      · exact hrwf i h
      · have : i = ⟨ob, re⟩ := List.mem_singleton.mp h
        rw [this]
        exact hrun
    · intro x
      show covers (result ++ [⟨ob, re⟩]) x ↔ _
      rw [covers_append, covers_cons, covers_nil]
      simp [memI]
  | cons c M' ih =>
    intro result ob re hwf hs hob hrun hch hrwf
    have hcwf : c.beg < c.end_ := hwf c (List.mem_cons_self _ _)
    have hobc : ob ≤ c.beg := hob c (List.mem_cons_self _ _)
    have hwf' : ∀ i ∈ M', i.beg < i.end_ :=
      fun i hi => hwf i (List.mem_cons_of_mem _ hi)
    have hs' : M'.Pairwise intervalLE := (List.pairwise_cons.mp hs).2
    have hcle : ∀ i ∈ M', c.beg ≤ i.beg := by
      intro i hi
      have := (List.pairwise_cons.mp hs).1 i hi
      unfold intervalLE at this
      omega
    by_cases hA : re < c.beg
    · -- the run closes: push `[ob, re)` and open a new run at `c`
      have hout : mergeLoop (c :: M') result ob re
          = mergeLoop M' (result ++ [⟨ob, re⟩]) c.beg c.end_ := by
        show (if re < c.beg then _ else _) = _
        rw [if_pos hA, mergeLoop_guard hch hrun]
      have hch2 : List.Chain' gapped ((result ++ [⟨ob, re⟩]) ++ [⟨c.beg, c.end_⟩]) :=
        chain_concat_extend hch hA
      have hrwf2 : ∀ i ∈ result ++ [⟨ob, re⟩], i.beg < i.end_ := by
        intro i hi
        rcases List.mem_append.mp hi with h | h
        · exact hrwf i h
        · have : i = ⟨ob, re⟩ := List.mem_singleton.mp h
          rw [this]
          exact hrun
      obtain ⟨ih1, ih2, ih3⟩ :=
        ih (result ++ [⟨ob, re⟩]) c.beg c.end_ hwf' hs' hcle hcwf hch2 hrwf2
      rw [hout]
      refine ⟨ih1, ih2, ?_⟩
      intro x
      rw [ih3 x, covers_append, covers_cons, covers_nil, covers_cons]
      simp only [memI]
      tauto
    · by_cases hB : re ≤ c.end_
      · -- the run extends: `rightmost = current`
        have hout : mergeLoop (c :: M') result ob re
            = mergeLoop M' result ob c.end_ := by
          show (if re < c.beg then _ else _) = _
          rw [if_neg hA, if_pos hB]
        have hch2 : List.Chain' gapped (result ++ [⟨ob, c.end_⟩]) :=
          chain_concat_retarget hch
        have hob2 : ∀ i ∈ M', ob ≤ i.beg :=
          fun i hi => hob i (List.mem_cons_of_mem _ hi)
        obtain ⟨ih1, ih2, ih3⟩ :=
          ih result ob c.end_ hwf' hs' hob2 (by omega) hch2 hrwf
        rw [hout]
        refine ⟨ih1, ih2, ?_⟩
        intro x
        rw [ih3 x, covers_cons]
        simp only [memI]
        have harith : (ob ≤ x ∧ x < c.end_) ↔
            ((ob ≤ x ∧ x < re) ∨ (c.beg ≤ x ∧ x < c.end_)) := by
          omega
        tauto
      · -- the interval is swallowed by the run
        have hout : mergeLoop (c :: M') result ob re
            = mergeLoop M' result ob re := by
          show (if re < c.beg then _ else _) = _
          rw [if_neg hA, if_neg hB]
        have hob2 : ∀ i ∈ M', ob ≤ i.beg :=
          fun i hi => hob i (List.mem_cons_of_mem _ hi)
        obtain ⟨ih1, ih2, ih3⟩ :=
          ih result ob re hwf' hs' hob2 hrun hch hrwf
        rw [hout]
        refine ⟨ih1, ih2, ?_⟩
        intro x
        rw [ih3 x, covers_cons]
        simp only [memI]
        have harith : (c.beg ≤ x ∧ x < c.end_) → (ob ≤ x ∧ x < re) := by
          omega
        tauto

/-- Characterisation of `merge` on a sorted list of non-empty intervals. -/
theorem merge_spec (s : List Interval)
    (hwf : ∀ i ∈ s, i.beg < i.end_) (hs : s.Pairwise intervalLE) :
    List.Chain' gapped (merge s)
    ∧ (∀ i ∈ merge s, i.beg < i.end_)
    ∧ (∀ x, covers (merge s) x ↔ covers s x) := by
  match s with
  | [] =>
    refine ⟨List.chain'_nil, ?_, fun x => Iff.rfl⟩
    intro i hi
    exact absurd hi (List.not_mem_nil i)
  | first :: rest =>
    have hfwf : first.beg < first.end_ := hwf first (List.mem_cons_self _ _)
    have hob : ∀ i ∈ first :: rest, first.beg ≤ i.beg := by
      intro i hi
      rcases List.mem_cons.mp hi with rfl | hi'
      · exact le_refl _
      · have := List.rel_of_pairwise_cons hs hi'
        unfold intervalLE at this
        omega
    have hch : List.Chain' gapped ([] ++ [(⟨first.beg, first.end_⟩ : Interval)]) := by
      simp
    obtain ⟨h1, h2, h3⟩ := mergeLoop_spec (first :: rest) [] first.beg first.end_
      hwf hs hob hfwf hch (fun i hi => absurd hi (List.not_mem_nil i))
    refine ⟨h1, h2, ?_⟩
    intro x
    show covers (mergeLoop (first :: rest) [] first.beg first.end_) x ↔ _
    rw [h3 x]
    constructor
    · rintro (h | hm | h)
      · obtain ⟨I, hI, -⟩ := h
        exact absurd hI (List.not_mem_nil I)
      · exact covers_cons.mpr (Or.inl hm)
      · exact h
    · intro h
      exact Or.inr (Or.inr h)

theorem chain_gapped_sorted {l : List Interval}
    (hwf : ∀ i ∈ l, i.beg < i.end_) (hc : l.Chain' gapped) :
    List.Sorted intervalLE l := by
  have hp := chain_gapped_pairwise (fun i hi => le_of_lt (hwf i hi)) hc
  refine List.Pairwise.imp_of_mem ?_ hp
  intro a b ha _ hg
  unfold gapped at hg
  have := hwf a ha
  exact Or.inl (by omega)

theorem chain_gapped_disjoint {l : List Interval}
    (hwf : ∀ i ∈ l, i.beg ≤ i.end_) (hc : l.Chain' gapped) :
    disjointIntervals l := by
  have hp := chain_gapped_pairwise hwf hc
  refine List.Pairwise.imp ?_ hp
  intro a b hg x hx
  unfold gapped at hg
  unfold memI at hx
  omega

/-- Non-emptiness of the merged intervals (needed by the minimality
argument). -/
theorem mergeRegions_wf {l : List Interval} (hwf : ∀ i ∈ l, i.beg < i.end_) :
    ∀ i ∈ mergeRegions l, i.beg < i.end_ := by
  have hperm := List.perm_insertionSort intervalLE l
  exact (merge_spec _ (fun i hi => hwf i (hperm.mem_iff.mp hi))
    (List.sorted_insertionSort intervalLE l)).2.1

/-- Claim C1 (amended: the input intervals are required to be non-empty,
`begin < end`; with `end = begin` permitted the output can retain empty
intervals and is then not minimal, see the counterexample):
per contig, after sorting by `(begin, end)`, the sweep in `merge` returns a
sorted sequence of pairwise-disjoint intervals with a strict gap between
adjacent intervals whose coordinate-set union equals the union of the
input, and the sequence is minimal: no sorted pairwise-disjoint list with
the same union is shorter. -/
theorem mergeRegions_correct (l : List Interval)
    (hwf : ∀ i ∈ l, i.beg < i.end_) :
    (∀ x, covers (mergeRegions l) x ↔ covers l x)
    ∧ List.Chain' gapped (mergeRegions l)
    ∧ List.Sorted intervalLE (mergeRegions l)
    ∧ disjointIntervals (mergeRegions l)
    ∧ ∀ l2 : List Interval, List.Sorted intervalLE l2 → disjointIntervals l2 →
        (∀ x, covers l2 x ↔ covers l x) → (mergeRegions l).length ≤ l2.length := by
  have hperm := List.perm_insertionSort intervalLE l
  have hswf : ∀ i ∈ List.insertionSort intervalLE l, i.beg < i.end_ :=
    fun i hi => hwf i (hperm.mem_iff.mp hi)
  obtain ⟨h1, h2, h3⟩ := merge_spec _ hswf (List.sorted_insertionSort intervalLE l)
  have hcov : ∀ x, covers (mergeRegions l) x ↔ covers l x := by
    intro x
    rw [show mergeRegions l = merge (List.insertionSort intervalLE l) from rfl, h3 x]
    constructor
    · rintro ⟨I, hI, hm⟩
      exact ⟨I, hperm.mem_iff.mp hI, hm⟩
    · rintro ⟨I, hI, hm⟩
      exact ⟨I, hperm.mem_iff.mpr hI, hm⟩
  have hMwf : ∀ i ∈ mergeRegions l, i.beg < i.end_ := h2
  have hMch : List.Chain' gapped (mergeRegions l) := h1
  refine ⟨hcov, hMch, chain_gapped_sorted hMwf hMch,
    chain_gapped_disjoint (fun i hi => le_of_lt (hMwf i hi)) hMch, ?_⟩
  intro l2 _ _ hcov2
  refine gapped_length_min (mergeRegions l) l2 hMch hMwf ?_ ?_
  · intro J hJ
    have hc : covers (mergeRegions l) J.beg := ⟨J, hJ, le_refl _, hMwf J hJ⟩
    exact (hcov2 J.beg).mpr ((hcov J.beg).mp hc)
  · intro J hJ hc2
    have hnot : ¬ covers (mergeRegions l) J.end_ :=
      gapped_end_not_covered hMwf
        (chain_gapped_pairwise (fun i hi => le_of_lt (hMwf i hi)) hMch) hJ
    exact hnot ((hcov J.end_).mpr ((hcov2 J.end_).mp hc2))

/-- Claim C1, counterexample to the claim as stated: the input `[[3,3))`
satisfies the claim's hypothesis `end ≥ begin`, the competitor `[]` is a
sorted, pairwise-disjoint list with the same (empty) coordinate-set union,
yet the merge output `[[3,3))` is longer — it is not the minimal such
sequence. -/
theorem mergeRegions_minimality_counterexample :
    (∀ i ∈ ([⟨3, 3⟩] : List Interval), i.beg ≤ i.end_)
    ∧ List.Sorted intervalLE ([] : List Interval)
    ∧ disjointIntervals ([] : List Interval)
    ∧ (∀ x, covers ([] : List Interval) x ↔ covers [⟨3, 3⟩] x)
    ∧ ¬ ((mergeRegions [⟨3, 3⟩]).length ≤ ([] : List Interval).length) := by
  refine ⟨by decide, List.sorted_nil, List.Pairwise.nil, ?_, by decide⟩
  intro x
  simp only [covers, memI, List.mem_singleton]
  constructor
  · rintro ⟨I, hI, -⟩
    exact absurd hI (List.not_mem_nil I)
  · rintro ⟨I, rfl, h1, h2⟩
    have h1' : (3 : Int) ≤ x := h1
    have h2' : x < 3 := h2
    omega

/-- Witness for C1 at a concrete input. -/
theorem mergeRegions_correct_witness :
    (∀ i ∈ ([⟨3, 8⟩, ⟨1, 5⟩, ⟨10, 12⟩] : List Interval), i.beg < i.end_)
    ∧ ((∀ x, covers (mergeRegions [⟨3, 8⟩, ⟨1, 5⟩, ⟨10, 12⟩]) x ↔
          covers [⟨3, 8⟩, ⟨1, 5⟩, ⟨10, 12⟩] x)
      ∧ List.Chain' gapped (mergeRegions [⟨3, 8⟩, ⟨1, 5⟩, ⟨10, 12⟩])
      ∧ List.Sorted intervalLE (mergeRegions [⟨3, 8⟩, ⟨1, 5⟩, ⟨10, 12⟩])
      ∧ disjointIntervals (mergeRegions [⟨3, 8⟩, ⟨1, 5⟩, ⟨10, 12⟩])
      ∧ ∀ l2 : List Interval, List.Sorted intervalLE l2 → disjointIntervals l2 →
          (∀ x, covers l2 x ↔ covers [⟨3, 8⟩, ⟨1, 5⟩, ⟨10, 12⟩] x) →
          (mergeRegions [⟨3, 8⟩, ⟨1, 5⟩, ⟨10, 12⟩]).length ≤ l2.length) :=
  ⟨by decide, mergeRegions_correct [⟨3, 8⟩, ⟨1, 5⟩, ⟨10, 12⟩] (by decide)⟩

/-- On a strictly gapped suffix the sweep emits every interval unchanged. -/
theorem mergeLoop_chain_id : ∀ (M result : List Interval) (ob re : Int),
    (∀ i ∈ M, i.beg ≤ i.end_) →
    List.Chain' gapped (⟨ob, re⟩ :: M) →
    (∀ y ∈ result.getLast?, ¬ y.end_ = re) →
    mergeLoop M result ob re = result ++ ⟨ob, re⟩ :: M := by
  intro M
  induction M with
  | nil => intro result ob re _ _ _; rfl
  | cons c M' ih =>
    intro result ob re hwf hch hg
    have hgap : re < c.beg := (List.chain'_cons.mp hch).1
    have hcwf : c.beg ≤ c.end_ := hwf c (List.mem_cons_self _ _)
    show (if re < c.beg then _ else _) = _
    rw [if_pos hgap]
    have hguard : (if result = [] ∨ ¬ (result.getLast?.map Interval.end_ = some re)
        then result ++ [(⟨ob, re⟩ : Interval)] else result) = result ++ [⟨ob, re⟩] := by
      rw [if_pos]
      cases hres : result.getLast? with
      | none => exact Or.inl (List.getLast?_eq_none_iff.mp hres)
      | some y =>
        right
        simp only [Option.map_some']
        intro hcontra
        exact hg y hres (Option.some.inj hcontra)
    rw [hguard]
    have hch' : List.Chain' gapped ((⟨c.beg, c.end_⟩ : Interval) :: M') :=
      (List.chain'_cons.mp hch).2
    have hg' : ∀ y ∈ (result ++ [(⟨ob, re⟩ : Interval)]).getLast?, ¬ y.end_ = c.end_ := by
      intro y hy
      have hy' : (⟨ob, re⟩ : Interval) = y := by
        rw [List.getLast?_concat] at hy
        simpa using hy
      rw [← hy']
      show ¬ re = c.end_
      omega
    have hrec := ih (result ++ [(⟨ob, re⟩ : Interval)]) c.beg c.end_
      (fun i hi => hwf i (List.mem_cons_of_mem _ hi)) hch' hg'
    rw [hrec, List.append_assoc]
    rfl

/-- `merge` is the identity on strictly gapped lists of well-formed
intervals. -/
theorem merge_chain_id (l : List Interval)
    (hwf : ∀ i ∈ l, i.beg ≤ i.end_) (hch : l.Chain' gapped) :
    merge l = l := by
  match l with
  | [] => rfl
  | first :: rest =>
    show mergeLoop (first :: rest) [] first.beg first.end_ = first :: rest
    have h1 : ¬ (first.end_ < first.beg) := by
      have := hwf first (List.mem_cons_self _ _)
      omega
    show (if first.end_ < first.beg then _ else _) = _
    rw [if_neg h1, if_pos (le_refl first.end_)]
    exact mergeLoop_chain_id rest [] first.beg first.end_
      (fun i hi => hwf i (List.mem_cons_of_mem _ hi)) hch
      (fun y hy => absurd hy (Option.not_mem_none y))

/-- Claim C9: the merge operation is idempotent — on a list that is
already sorted, pairwise-disjoint and strictly gapped (the output shape of
`merge`; intervals satisfy the data-model invariant `end ≥ begin`),
sorting and merging return the list unchanged. -/
theorem mergeRegions_idempotent (l : List Interval)
    (hwf : ∀ i ∈ l, i.beg ≤ i.end_)
    (hs : List.Sorted intervalLE l)
    (_hd : disjointIntervals l)
    (hg : l.Chain' gapped) :
    mergeRegions l = l := by
  unfold mergeRegions
  rw [List.Sorted.insertionSort_eq hs]
  exact merge_chain_id l hwf hg

/-- Witness for C9 at a concrete input. -/
theorem mergeRegions_idempotent_witness :
    ((∀ i ∈ ([⟨1, 3⟩, ⟨5, 7⟩] : List Interval), i.beg ≤ i.end_)
      ∧ List.Sorted intervalLE ([⟨1, 3⟩, ⟨5, 7⟩] : List Interval)
      ∧ disjointIntervals ([⟨1, 3⟩, ⟨5, 7⟩] : List Interval)
      ∧ List.Chain' gapped ([⟨1, 3⟩, ⟨5, 7⟩] : List Interval))
    ∧ mergeRegions [⟨1, 3⟩, ⟨5, 7⟩] = [⟨1, 3⟩, ⟨5, 7⟩] := by
  have hwf : ∀ i ∈ ([⟨1, 3⟩, ⟨5, 7⟩] : List Interval), i.beg ≤ i.end_ := by decide
  have hs : List.Sorted intervalLE ([⟨1, 3⟩, ⟨5, 7⟩] : List Interval) := by
    refine List.pairwise_cons.mpr ⟨?_, List.pairwise_cons.mpr ⟨?_, List.Pairwise.nil⟩⟩
    · intro b hb
      rcases List.mem_singleton.mp hb with rfl
      exact Or.inl (by decide)
    · intro b hb
      exact absurd hb (List.not_mem_nil b)
  have hd : disjointIntervals ([⟨1, 3⟩, ⟨5, 7⟩] : List Interval) := by
    refine List.pairwise_cons.mpr ⟨?_, List.pairwise_cons.mpr ⟨?_, List.Pairwise.nil⟩⟩
    · intro b hb
      rcases List.mem_singleton.mp hb with rfl
      intro x hx
      obtain ⟨⟨h1, h2⟩, ⟨h3, h4⟩⟩ := hx
      have h2' : x < (3 : Int) := h2
      have h3' : (5 : Int) ≤ x := h3
      omega
    · intro b hb
      exact absurd hb (List.not_mem_nil b)
  have hg : List.Chain' gapped ([⟨1, 3⟩, ⟨5, 7⟩] : List Interval) :=
    List.chain'_cons.mpr ⟨by decide, List.chain'_singleton _⟩
  exact ⟨⟨hwf, hs, hd, hg⟩, mergeRegions_idempotent [⟨1, 3⟩, ⟨5, 7⟩] hwf hs hd hg⟩

/-! ## Claim C4: duplicate edit-set lines -/

theorem mapFind_nil (k : String) : mapFind [] k = none := rfl

theorem mapFind_cons (p : String × String) (ps : List (String × String)) (k : String) :
    mapFind (p :: ps) k = if p.1 = k then some p.2 else mapFind ps k := by
  by_cases h : p.1 = k
  · simp [mapFind, List.find?_cons, h]
  · simp [mapFind, List.find?_cons, h]

theorem mapFind_append (l m : List (String × String)) (k : String) :
    mapFind (l ++ m) k =
      match mapFind l k with
      | some v => some v
      | none => mapFind m k := by
  induction l with
  | nil => rw [List.nil_append, mapFind_nil]
  | cons p l ih =>
    rw [List.cons_append, mapFind_cons, mapFind_cons]
    by_cases h : p.1 = k
    · rw [if_pos h, if_pos h]
    · rw [if_neg h, if_neg h, ih]

theorem mapFind_isSome_of_contains {acc : List (String × String)} {key : String}
    (hc : (acc.find? (fun e => e.1 = key)).isSome = true) :
    ∃ v, mapFind acc key = some v := by
  obtain ⟨e, he⟩ := Option.isSome_iff_exists.mp hc
  exact ⟨e.2, by rw [mapFind, he]; rfl⟩

/-- The `unordered_map` built by inserting pairs in order resolves every
key to its first occurrence in the pair list. -/
theorem buildReadNameMap_find : ∀ (ps acc : List (String × String)) (k : String),
    mapFind (List.foldl mapInsert acc ps) k =
      (match mapFind acc k with
       | some v => some v
       | none => mapFind ps k) := by
  intro ps
  induction ps with
  | nil =>
    intro acc k
    rw [List.foldl_nil, mapFind_nil]
    cases mapFind acc k <;> rfl
  | cons p ps ih =>
    intro acc k
    rw [List.foldl_cons, ih, mapFind_cons]
    unfold mapInsert
    by_cases hc : (acc.find? (fun e => e.1 = p.1)).isSome = true
    · rw [if_pos hc]
      cases hacc : mapFind acc k with
      | some v => rfl
      | none =>
        have hne : ¬ p.1 = k := by
          intro heq
          obtain ⟨v, hv⟩ := mapFind_isSome_of_contains hc
          rw [heq] at hv
          rw [hacc] at hv
          exact Option.noConfusion hv
        rw [if_neg hne]
    · rw [if_neg hc, mapFind_append]
      cases hacc : mapFind acc k with
      | some v => rfl
      | none =>
        rw [mapFind_cons, mapFind_nil]
        by_cases hp : p.1 = k
        · rw [if_pos hp, if_pos hp]
        · rw [if_neg hp, if_neg hp]

/-- Claim C4 (amended: the FIRST write wins, not the last): `load_reads`
resolves every identifier to the payload of the first line bearing it —
the `unordered_map` range construction inserts pairs in order and
`insert` is a no-op on a key that is already present. -/
theorem load_reads_first_write_wins (lines : List String) (k : String) :
    mapFind (load_reads lines) k = mapFind (loadReadsPairs lines) k := by
  show mapFind (List.foldl mapInsert [] (loadReadsPairs lines)) k = _
  rw [buildReadNameMap_find, mapFind_nil]

/-- Claim C4, counterexample to the claim as stated: two lines with the
same identifier `r`; the loaded map keeps the first payload `A`, not the
last payload `B`. -/
theorem load_reads_last_write_counterexample :
    mapFind (load_reads ["r\tA", "r\tB"]) "r" = some "A"
    ∧ ¬ (mapFind (load_reads ["r\tA", "r\tB"]) "r" = some "B") := by
  constructor
  · decide
  · decide

/-! ## Claim C10: tag parser acceptance -/

theorem tag_guard_iff (n : Nat) (P : Prop) :
    (¬ (n < 2 ∨ n = 3 ∨ (n > 3 ∧ ¬ P))) ↔ (n = 2 ∨ (4 ≤ n ∧ P)) := by
  by_cases hP : P
  · simp only [hP, not_true, and_false, or_false, and_true]
    omega
  · simp only [hP, not_false_iff, and_true, or_false, and_false]
    omega

theorem get_tag_isOk (s : String) :
    (get_tag s).isOk = true ↔
      ¬ (s.toList.length < 2 ∨ s.toList.length = 3
        ∨ (s.toList.length > 3 ∧ ¬ (s.toList.get? 2 = some ':'))) := by
  by_cases hcond : (s.toList.length < 2 ∨ s.toList.length = 3
      ∨ (s.toList.length > 3 ∧ ¬ (s.toList.get? 2 = some ':')))
  · have he : get_tag s = Except.error ("Invalid tag " ++ s ++ " (required TAG:VALUE)") := by
      show (if _ then _ else _) = _
      rw [if_pos hcond]
    rw [he]
    show (false = true) ↔ _
    simp only [Bool.false_eq_true, false_iff]
    exact not_not_intro hcond
  · have he : get_tag s = Except.ok
        { id := String.mk (s.toList.take 2)
        , value := if s.toList.length > 3
            then get_tag_value (String.mk (s.toList.drop 3)) else .str "" } := by
      show (if _ then _ else _) = _
      rw [if_neg hcond]
    rw [he]
    show (true = true) ↔ _
    simp only [true_iff]
    exact hcond

theorem parse_search_tag_isOk (compile : String → String → Bool) (s : String) :
    (parse_search_tag compile s).isOk = true ↔
      ¬ (s.toList.length < 2 ∨ s.toList.length = 3
        ∨ (s.toList.length > 3 ∧ ¬ (s.toList.get? 2 = some ':'))) := by
  by_cases hcond : (s.toList.length < 2 ∨ s.toList.length = 3
      ∨ (s.toList.length > 3 ∧ ¬ (s.toList.get? 2 = some ':')))
  · have he : parse_search_tag compile s
        = Except.error ("Invalid tag " ++ s ++ " (required TAG[:VALUE])") := by
      show (if _ then _ else _) = _
      rw [if_pos hcond]
    rw [he]
    show (false = true) ↔ _
    simp only [Bool.false_eq_true, false_iff]
    exact not_not_intro hcond
  · by_cases hlong : s.toList.length > 3
    · have he : parse_search_tag compile s = Except.ok
          { id := String.mk (s.toList.take 2)
          , value := some (String.mk (s.toList.drop 3))
          , pattern := some (compile (String.mk (s.toList.drop 3))) } := by
        show (if _ then _ else if _ then _ else _) = _
        rw [if_neg hcond, if_pos hlong]
      rw [he]
      show (true = true) ↔ _
      simp only [true_iff]
      exact hcond
    · have he : parse_search_tag compile s = Except.ok
          { id := String.mk (s.toList.take 2), value := none, pattern := none } := by
        show (if _ then _ else if _ then _ else _) = _
        rw [if_neg hcond, if_neg hlong]
      rw [he]
      show (true = true) ↔ _
      simp only [true_iff]
      exact hcond

/-- Claim C10: `get_tag` and `parse_search_tag` accept a token if and only
if its length is exactly 2, or its length is at least 4 with a colon at
index 2; every other input — length below 2, length exactly 3 (including
`"XY:"`), or length at least 4 without the colon — is a fatal error.  The
length-3 rejection is stated explicitly as the last conjunct. -/
theorem tag_parsers_accept_iff (compile : String → String → Bool) (s : String) :
    ((get_tag s).isOk = true ↔
      (s.length = 2 ∨ (4 ≤ s.length ∧ s.toList.get? 2 = some ':')))
    ∧ ((parse_search_tag compile s).isOk = true ↔
      (s.length = 2 ∨ (4 ≤ s.length ∧ s.toList.get? 2 = some ':')))
    ∧ (s.length = 3 →
        (get_tag s).isOk = false ∧ (parse_search_tag compile s).isOk = false) := by
  have hlen : s.length = s.toList.length := rfl
  have hshape := tag_guard_iff s.toList.length (s.toList.get? 2 = some ':')
  refine ⟨?_, ?_, ?_⟩
  · rw [get_tag_isOk, hlen]
    exact hshape
  · rw [parse_search_tag_isOk, hlen]
    exact hshape
  · intro h3
    rw [hlen] at h3
    constructor
    · rw [Bool.eq_false_iff]
      intro hok
      have := (get_tag_isOk s).mp hok
      omega
    · rw [Bool.eq_false_iff]
      intro hok
      have := (parse_search_tag_isOk compile s).mp hok
      omega

/-! ## Claim C8: fraction reporting -/

/-- Claim C8: every data row written by the report writer has fraction
`count / total_reads`, and when `total_reads` is zero the guarded branch
renders the literal `0` instead — no division is evaluated. -/
theorem write_fraction_safe (stats : TagStats) (sorted : Bool) (row : StatsRow)
    (h : row ∈ writeStatsRows stats sorted) :
    row.fraction = if stats.total_reads = 0 then (0 : ℚ)
      else (row.count : ℚ) / (stats.total_reads : ℚ) := by
  unfold writeStatsRows at h
  obtain ⟨e, -, rfl⟩ := List.mem_map.mp h
  show (if stats.total_reads > 0
      then ((e.2 : ℚ) / (stats.total_reads : ℚ)) else 0) = _
  by_cases h0 : stats.total_reads = 0
  · rw [if_neg (by omega), if_pos h0]
  · rw [if_pos (by omega), if_neg h0]
    rfl

/-- Witness for C8: a single declared tag with count 3 and zero admitted
records renders fraction `0`. -/
theorem write_fraction_safe_witness :
    ((⟨"AB", "*", 3, 0⟩ : StatsRow)
        ∈ writeStatsRows ⟨[(⟨"AB", none, none⟩, 3)], none, 0⟩ false)
    ∧ (⟨"AB", "*", 3, 0⟩ : StatsRow).fraction
        = (if (⟨[(⟨"AB", none, none⟩, 3)], none, 0⟩ : TagStats).total_reads = 0 then (0 : ℚ)
           else ((⟨"AB", "*", 3, 0⟩ : StatsRow).count : ℚ)
             / ((⟨[(⟨"AB", none, none⟩, 3)], none, 0⟩ : TagStats).total_reads : ℚ)) :=
  ⟨by decide, write_fraction_safe ⟨[(⟨"AB", none, none⟩, 3)], none, 0⟩ false _ (by decide)⟩

/-! ## Tagging-mode lemmas -/

theorem add_tag_qname (t : Tag) (r : SamRec) : (add_tag t r).qname = r.qname := by
  obtain ⟨tid, v⟩ := t
  cases v with
  | str s =>
    show (if s = "" then r else _).qname = r.qname
    split <;> rfl
  | int i => rfl
  | real q => rfl

theorem foldl_add_tag_qname (ts : List Tag) (r : SamRec) :
    (ts.foldl (fun r t => add_tag t r) r).qname = r.qname := by
  induction ts generalizing r with
  | nil => rfl
  | cons t ts ih => rw [List.foldl_cons, ih, add_tag_qname]

theorem processRecord_unmatched {rns : List (String × String)}
    {btg sd : Bool} {bf : Option Nat} {st : List Tag} {rec : SamRec}
    (h : mapFind rns rec.qname = none) :
    processRecord rns btg sd bf st rec = .ok (rec, st) := by
  unfold processRecord
  rw [h]

theorem processRecord_ok_qname {rns : List (String × String)}
    {btg sd : Bool} {bf : Option Nat} {st : List Tag} {rec r' : SamRec}
    {st' : List Tag}
    (h : processRecord rns btg sd bf st rec = .ok (r', st')) :
    r'.qname = rec.qname := by
  unfold processRecord at h
  split at h
  · injection h with h2
    cases h2
    rfl
  · split at h
    · cases h
    · injection h with h2
      cases h2
      show (List.foldl (fun r t => add_tag t r) _ _).qname = _
      rw [foldl_add_tag_qname]
      split <;> rfl

theorem tagReadsLoop_cons (rns : List (String × String)) (btg sd : Bool)
    (bf : Option Nat) (r : SamRec) (rs : List SamRec) (st : List Tag) :
    tagReadsLoop rns btg sd bf (r :: rs) st =
      match processRecord rns btg sd bf st r with
      | .error e => ([], some e)
      | .ok (r', st') =>
        (r' :: (tagReadsLoop rns btg sd bf rs st').1,
          (tagReadsLoop rns btg sd bf rs st').2) := by
  show (match processRecord rns btg sd bf st r with
        | .error e => ([], some e)
        | .ok (r', st') => _) = _
  cases processRecord rns btg sd bf st r with
  | error e => rfl
  | ok p => rfl

theorem tagReadsLoop_spec (rns : List (String × String)) (btg sd : Bool)
    (bf : Option Nat) : ∀ (recs : List SamRec) (st : List Tag),
    (tagReadsLoop rns btg sd bf recs st).2 = none →
    ((tagReadsLoop rns btg sd bf recs st).1.length = recs.length
    ∧ ∀ (i : Nat) (r0 : SamRec), recs[i]? = some r0 →
        ∃ r', (tagReadsLoop rns btg sd bf recs st).1[i]? = some r'
          ∧ r'.qname = r0.qname
          ∧ (mapFind rns r0.qname = none → r' = r0)) := by
  intro recs
  induction recs with
  | nil =>
    intro st _
    refine ⟨rfl, ?_⟩
    intro i r0 h0
    rw [List.getElem?_nil] at h0
    exact Option.noConfusion h0
  | cons r rs ih =>
    intro st hok
    rw [tagReadsLoop_cons] at hok ⊢
    cases hp : processRecord rns btg sd bf st r with
    | error e =>
      rw [hp] at hok
      exact Option.noConfusion hok
    | ok p =>
      obtain ⟨r', st2⟩ := p
      rw [hp] at hok
      have herr : (tagReadsLoop rns btg sd bf rs st2).2 = none := hok
      obtain ⟨ihlen, ihidx⟩ := ih st2 herr
      refine ⟨?_, ?_⟩
      · show (r' :: (tagReadsLoop rns btg sd bf rs st2).1).length = rs.length + 1
        rw [List.length_cons, ihlen]
      · intro i r0 h0
        match i with
        | 0 =>
          rw [List.getElem?_cons_zero] at h0
          have hr0 : r = r0 := Option.some.inj h0
          refine ⟨r', ?_, ?_, ?_⟩
          · show (r' :: (tagReadsLoop rns btg sd bf rs st2).1)[0]? = some r'
            exact List.getElem?_cons_zero
          · rw [processRecord_ok_qname hp, hr0]
          · intro hu
            rw [← hr0] at hu
            have h2 := @processRecord_unmatched rns btg sd bf st r hu
            rw [hp] at h2
            injection h2 with h3
            have h4 : r' = r := congrArg Prod.fst h3
            rw [h4, hr0]
        | Nat.succ n =>
          rw [List.getElem?_cons_succ] at h0
          obtain ⟨r2, hr2, hq, hf⟩ := ihidx n r0 h0
          refine ⟨r2, ?_, hq, hf⟩
          show (r' :: (tagReadsLoop rns btg sd bf rs st2).1)[n + 1]? = some r2
          rw [List.getElem?_cons_succ]
          exact hr2

/-- Claim C5: when `tag_reads` completes without a fatal error it emits
every input record exactly once, in input order (the output has the same
length and the record at every position carries the corresponding input
read name), and a record whose identifier is not in the edit-set mapping
is emitted exactly equal to its input, whatever base tag or base flag was
supplied. -/
theorem tag_reads_emission (rns : List (String × String)) (recs : List SamRec)
    (tag : Option Tag) (flag : Option Nat)
    (hok : (tag_reads rns recs tag flag).2 = none) :
    (tag_reads rns recs tag flag).1.length = recs.length
    ∧ ∀ (i : Nat) (r0 : SamRec), recs[i]? = some r0 →
        ∃ r', (tag_reads rns recs tag flag).1[i]? = some r'
          ∧ r'.qname = r0.qname
          ∧ (mapFind rns r0.qname = none → r' = r0) := by
  exact tagReadsLoop_spec rns tag.isSome _ flag recs _ hok

/-- Witness for C5: a two-record stream, one matched and one unmatched. -/
theorem tag_reads_emission_witness :
    ((tag_reads [("a", "NM:5")] [⟨"a", 0, []⟩, ⟨"b", 7, [("XX", .str "v")]⟩]
        none none).2 = none)
    ∧ (tag_reads [("a", "NM:5")] [⟨"a", 0, []⟩, ⟨"b", 7, [("XX", .str "v")]⟩]
        none none).1.length
        = ([⟨"a", 0, []⟩, ⟨"b", 7, [("XX", .str "v")]⟩] : List SamRec).length
    ∧ ∀ (i : Nat) (r0 : SamRec),
        ([⟨"a", 0, []⟩, ⟨"b", 7, [("XX", .str "v")]⟩] : List SamRec)[i]? = some r0 →
        ∃ r', (tag_reads [("a", "NM:5")] [⟨"a", 0, []⟩, ⟨"b", 7, [("XX", .str "v")]⟩]
            none none).1[i]? = some r'
          ∧ r'.qname = r0.qname
          ∧ (mapFind [("a", "NM:5")] r0.qname = none → r' = r0) :=
  ⟨by decide,
    tag_reads_emission [("a", "NM:5")] [⟨"a", 0, []⟩, ⟨"b", 7, [("XX", .str "v")]⟩]
      none none (by decide)⟩

theorem splitFirstTab_tab_head (cs : List Char) :
    splitFirstTab ('\t' :: cs) = ([], some cs) := by
  show (if ('\t' : Char) = '\t' then _ else _) = _
  rw [if_pos rfl]

theorem splitFirstTab_no_tab : ∀ (cs : List Char), (∀ c ∈ cs, ¬ c = '\t') →
    splitFirstTab cs = (cs, none) := by
  intro cs
  induction cs with
  | nil => intro _; rfl
  | cons c cs ih =>
    intro h
    have hc : ¬ c = '\t' := h c (List.mem_cons_self _ _)
    show (if c = '\t' then _ else _) = _
    rw [if_neg hc, ih (fun d hd => h d (List.mem_cons_of_mem _ hd))]

theorem get_tag_empty :
    get_tag "" = Except.error ("Invalid tag " ++ "" ++ " (required TAG:VALUE)") := by
  rfl

theorem processEdits_flag_only (st : List Tag) (rest : String) :
    ∃ e, processEdits false none st ("\t" ++ rest) = .error e := by
  have hdata : ("\t" ++ rest).toList = '\t' :: rest.toList := by
    show ("\t" ++ rest).data = '\t' :: rest.data
    rw [String.data_append]
    rfl
  cases hparse : parseLong rest.toList with
  | none =>
    refine ⟨"stoi: invalid argument", ?_⟩
    simp only [processEdits, hdata, splitFirstTab_tab_head, hparse]
  | some n =>
    refine ⟨"Invalid tag " ++ "" ++ " (required TAG:VALUE)", ?_⟩
    have hmk : String.mk ([] : List Char) = "" := rfl
    simp only [processEdits, hdata, splitFirstTab_tab_head, hparse, hmk,
      get_tag_empty, Bool.false_eq_true, if_false]

theorem processRecord_matched {rns : List (String × String)} {btg sd : Bool}
    {bf : Option Nat} {st : List Tag} {rec : SamRec} {edits : String}
    (hm : mapFind rns rec.qname = some edits) :
    processRecord rns btg sd bf st rec =
      match (if edits = "" then Except.ok (bf, st)
             else processEdits sd bf st edits) with
      | .error e => .error e
      | .ok (readFlag, st2) =>
        .ok (st2.foldl (fun r t => add_tag t r)
              (match readFlag with
               | some f => { rec with flag := rec.flag ||| f }
               | none => rec)
           , if btg then st2.take 1 else []) := by
  unfold processRecord
  rw [hm]

theorem processRecord_flag_only {rns : List (String × String)} {st : List Tag}
    {rec : SamRec} {rest : String}
    (h : mapFind rns rec.qname = some ("\t" ++ rest)) :
    ∃ e, processRecord rns false false none st rec = .error e := by
  obtain ⟨e, he⟩ := processEdits_flag_only st rest
  refine ⟨e, ?_⟩
  have hne : ¬ ("\t" ++ rest) = "" := by
    intro hh
    have h3 := congrArg String.data hh
    rw [String.data_append] at h3
    exact List.noConfusion h3
  rw [processRecord_matched h, if_neg hne, he]

/-- Claim C2 (corrected: the program does not apply a flag-only edit; it
aborts): in annotation mode with no base tag and no base flag, a record
whose edit-set entry is a tab followed by anything (so the tag payload
before the tab is empty) makes `tag_reads` terminate with a fatal error —
the empty tag payload reaches `get_tag` (or a non-numeric flag literal
makes `stoi` throw) — and the record is not emitted. -/
theorem flag_only_edit_fatal (rns : List (String × String)) (rec : SamRec)
    (rs : List SamRec) (rest : String)
    (h : mapFind rns rec.qname = some ("\t" ++ rest)) :
    (tag_reads rns (rec :: rs) none none).1 = []
    ∧ (tag_reads rns (rec :: rs) none none).2.isSome = true := by
  obtain ⟨e, he⟩ := @processRecord_flag_only rns ([] : List Tag) rec rest h
  have hrun : tag_reads rns (rec :: rs) none none = ([], some e) := by
    show tagReadsLoop rns false false none (rec :: rs) [] = ([], some e)
    rw [tagReadsLoop_cons, he]
  rw [hrun]
  exact ⟨rfl, rfl⟩

/-- Witness for C2 (amended form) at the spec's own scenario entry. -/
theorem flag_only_edit_fatal_witness :
    (mapFind [("r1", "\t16")] (⟨"r1", 0, []⟩ : SamRec).qname = some ("\t" ++ "16"))
    ∧ (tag_reads [("r1", "\t16")] [⟨"r1", 0, []⟩] none none).1 = []
    ∧ (tag_reads [("r1", "\t16")] [⟨"r1", 0, []⟩] none none).2.isSome = true :=
  ⟨by decide,
    (flag_only_edit_fatal [("r1", "\t16")] ⟨"r1", 0, []⟩ [] "16" (by decide)).1,
    (flag_only_edit_fatal [("r1", "\t16")] ⟨"r1", 0, []⟩ [] "16" (by decide)).2⟩

/-- Claim C2, counterexample to the claim as stated: for the edit entry
`"\t16"` the claim predicts the record emitted with flags `0 ||| 16 = 16`
and tags unchanged, and processing continuing; the code instead emits
nothing and stops with an invalid-tag error. -/
theorem flag_only_edit_counterexample :
    ¬ (tag_reads [("r1", "\t16")] [⟨"r1", 0, []⟩] none none
        = ([⟨"r1", 16, []⟩], none))
    ∧ tag_reads [("r1", "\t16")] [⟨"r1", 0, []⟩] none none
        = ([], some ("Invalid tag " ++ "" ++ " (required TAG:VALUE)")) := by
  constructor
  · decide
  · decide

theorem get_tag_value_str {s t : String} (h : get_tag_value s = .str t) : t = s := by
  unfold get_tag_value at h
  split at h
  · cases hp : parseDec s.toList with
    | some q =>
      rw [hp] at h
      exact TagValue.noConfusion h
    | none =>
      rw [hp] at h
      exact (TagValue.str.inj h).symm
  · cases hp : parseLong s.toList with
    | some i =>
      rw [hp] at h
      exact TagValue.noConfusion h
    | none =>
      rw [hp] at h
      exact (TagValue.str.inj h).symm

theorem add_tag_get_tag_value {s : String} (h : ¬ s = "") (tid : String) (r : SamRec) :
    add_tag ⟨tid, get_tag_value s⟩ r
      = { r with tags := updateAux tid (get_tag_value s) r.tags } := by
  cases hv : get_tag_value s with
  | str t =>
    have ht : t = s := get_tag_value_str hv
    show (if t = "" then r else _) = _
    rw [if_neg (by rw [ht]; exact h)]
  | int i => rfl
  | real q => rfl

theorem processEdits_default_no_tab {tid : String} {v0 : TagValue} {p1 : String}
    (hnt : ∀ c ∈ p1.toList, ¬ c = '\t') :
    processEdits true none [⟨tid, v0⟩] p1 = .ok (none, [⟨tid, get_tag_value p1⟩]) := by
  unfold processEdits
  rw [splitFirstTab_no_tab p1.toList hnt]
  rfl

theorem processRecord_matched_empty {rns : List (String × String)} {btg sd : Bool}
    {st : List Tag} {rec : SamRec}
    (hm : mapFind rns rec.qname = some "") :
    processRecord rns btg sd none st rec
      = .ok (st.foldl (fun r t => add_tag t r) rec, if btg then st.take 1 else []) := by
  rw [processRecord_matched hm, if_pos rfl]

theorem processRecord_default_payload {rns : List (String × String)} {tid : String}
    {v0 : TagValue} {rec : SamRec} {p1 : String}
    (hm : mapFind rns rec.qname = some p1) (hp : ¬ p1 = "")
    (hnt : ∀ c ∈ p1.toList, ¬ c = '\t') :
    processRecord rns true true none [⟨tid, v0⟩] rec
      = .ok ({ rec with tags := updateAux tid (get_tag_value p1) rec.tags }
            , [⟨tid, get_tag_value p1⟩]) := by
  rw [processRecord_matched hm, if_neg hp, processEdits_default_no_tab hnt]
  show Except.ok
      (([⟨tid, get_tag_value p1⟩] : List Tag).foldl (fun r t => add_tag t r) rec,
        ([⟨tid, get_tag_value p1⟩] : List Tag).take 1) = _
  rw [List.foldl_cons, List.foldl_nil, add_tag_get_tag_value hp]
  rfl

/-- Claim C3 (corrected: the default-tag value does NOT revert; it
persists): in default-tag mode, once a matched record's non-empty payload
`p1` has become the base tag's value, a later matched record whose edit
payload is empty receives that same value — the accumulator reset
(`tags.resize(1)`, main.cpp:242-244) keeps the mutated front slot, so the
slot does not revert to signal-only. -/
theorem default_tag_value_persists (rns : List (String × String)) (tid p1 : String)
    (r1 r2 : SamRec)
    (h1 : mapFind rns r1.qname = some p1)
    (hp : ¬ p1 = "")
    (hnt : ∀ c ∈ p1.toList, ¬ c = '\t')
    (h2 : mapFind rns r2.qname = some "") :
    tag_reads rns [r1, r2] (some ⟨tid, TagValue.str ""⟩) none
      = ([ { r1 with tags := updateAux tid (get_tag_value p1) r1.tags }
         , { r2 with tags := updateAux tid (get_tag_value p1) r2.tags } ], none) := by
  show tagReadsLoop rns true true none [r1, r2] [⟨tid, TagValue.str ""⟩] = _
  rw [tagReadsLoop_cons, processRecord_default_payload h1 hp hnt]
  show ({ r1 with tags := updateAux tid (get_tag_value p1) r1.tags }
      :: (tagReadsLoop rns true true none [r2] [⟨tid, get_tag_value p1⟩]).1,
      (tagReadsLoop rns true true none [r2] [⟨tid, get_tag_value p1⟩]).2) = _
  rw [tagReadsLoop_cons, processRecord_matched_empty h2]
  show ({ r1 with tags := updateAux tid (get_tag_value p1) r1.tags }
      :: (([⟨tid, get_tag_value p1⟩] : List Tag).foldl (fun r t => add_tag t r) r2)
      :: ([] : List SamRec), (none : Option String)) = _
  rw [List.foldl_cons, List.foldl_nil, add_tag_get_tag_value hp]

/-- Claim C3, counterexample to the claim as stated: base tag `ZZ`
signal-only, record `r1` has payload `hello`, record `r2` is matched with
an empty payload.  The claim predicts `r2` is emitted with no tag written;
the code emits `r2` carrying the previous record's value `ZZ = "hello"`. -/
theorem default_tag_revert_counterexample :
    (tag_reads [("r1", "hello"), ("r2", "")]
        [⟨"r1", 0, []⟩, ⟨"r2", 0, []⟩] (some ⟨"ZZ", TagValue.str ""⟩) none).1[1]?
      = some ⟨"r2", 0, [("ZZ", TagValue.str "hello")]⟩
    ∧ ¬ ((tag_reads [("r1", "hello"), ("r2", "")]
        [⟨"r1", 0, []⟩, ⟨"r2", 0, []⟩] (some ⟨"ZZ", TagValue.str ""⟩) none).1[1]?
      = some ⟨"r2", 0, []⟩) := by
  constructor
  · decide
  · decide

/-- Witness for C3 (amended form) at the spec's own scenario. -/
theorem default_tag_value_persists_witness :
    ((mapFind [("r1", "hello"), ("r2", "")] (⟨"r1", 0, []⟩ : SamRec).qname = some "hello")
      ∧ (¬ ("hello" : String) = "")
      ∧ (∀ c ∈ ("hello" : String).toList, ¬ c = '\t')
      ∧ (mapFind [("r1", "hello"), ("r2", "")] (⟨"r2", 0, []⟩ : SamRec).qname = some ""))
    ∧ tag_reads [("r1", "hello"), ("r2", "")] [⟨"r1", 0, []⟩, ⟨"r2", 0, []⟩]
        (some ⟨"ZZ", TagValue.str ""⟩) none
      = ([ { (⟨"r1", 0, []⟩ : SamRec) with
              tags := updateAux "ZZ" (get_tag_value "hello") (⟨"r1", 0, []⟩ : SamRec).tags }
         , { (⟨"r2", 0, []⟩ : SamRec) with
              tags := updateAux "ZZ" (get_tag_value "hello") (⟨"r2", 0, []⟩ : SamRec).tags } ], none) :=
  ⟨⟨by decide, by decide, by decide, by decide⟩,
    default_tag_value_persists [("r1", "hello"), ("r2", "")] "ZZ" "hello"
      ⟨"r1", 0, []⟩ ⟨"r2", 0, []⟩ (by decide) (by decide) (by decide) (by decide)⟩

/-! ## Stats aggregator lemmas -/

theorem hitInc_le_one (read : SamRec) (tag : SearchTag) : hitInc read tag ≤ 1 := by
  unfold hitInc
  repeat' split
  all_goals omega

theorem addReadCounts_fst (read : SamRec) : ∀ (l : List (SearchTag × Nat))
    (vcs : Option (List (SearchTag × Nat))),
    (addReadCounts read l vcs).1 = l.map (fun e => (e.1, e.2 + hitInc read e.1)) := by
  intro l
  induction l with
  | nil => intro vcs; rfl
  | cons e rest ih =>
    intro vcs
    obtain ⟨tag, count⟩ := e
    cases hg : bamAuxGet read tag.id with
    | none =>
      simp only [addReadCounts, hg]
      rw [ih vcs, List.map_cons]
      have hh : hitInc read tag = 0 := by simp [hitInc, hg]
      rw [hh]
      rfl
    | some p =>
      cases hpat : tag.pattern with
      | none =>
        simp only [addReadCounts, hg, hpat]
        rw [ih _, List.map_cons]
        have hh : hitInc read tag = 1 := by simp [hitInc, hg, hpat]
        rw [hh]
      | some pat =>
        cases hz : bamAux2Z p with
        | none =>
          simp only [addReadCounts, hg, hpat, hz]
          rw [ih vcs, List.map_cons]
          have hh : hitInc read tag = 0 := by simp [hitInc, hg, hpat, hz]
          rw [hh]
          rfl
        | some v =>
          cases hv : pat v with
          | true =>
            simp only [addReadCounts, hg, hpat, hz, hv, if_true]
            rw [ih _, List.map_cons]
            have hh : hitInc read tag = 1 := by simp [hitInc, hg, hpat, hz, hv]
            rw [hh]
          | false =>
            simp only [addReadCounts, hg, hpat, hz, hv, if_false]
            rw [ih vcs, List.map_cons]
            have hh : hitInc read tag = 0 := by simp [hitInc, hg, hpat, hz, hv]
            rw [hh]
            rfl

theorem add_read_counts (read : SamRec) (s : TagStats) :
    (add_read read s).counts = s.counts.map (fun e => (e.1, e.2 + hitInc read e.1)) := by
  show (addReadCounts read s.counts s.value_counts).1 = _
  exact addReadCounts_fst read s.counts s.value_counts

theorem add_read_total (read : SamRec) (s : TagStats) :
    (add_read read s).total_reads = s.total_reads + 1 := rfl

theorem foldl_add_read_total : ∀ (recs : List SamRec) (s : TagStats),
    (recs.foldl (fun s r => add_read r s) s).total_reads = s.total_reads + recs.length := by
  intro recs
  induction recs with
  | nil => intro s; rfl
  | cons r rs ih =>
    intro s
    rw [List.foldl_cons, ih, add_read_total, List.length_cons]
    omega

theorem runStats_total (tags : List SearchTag) (split : Bool) (recs : List SamRec) :
    (runStats tags split recs).total_reads = recs.length := by
  show (recs.foldl (fun s r => add_read r s) (init_stats tags split)).total_reads = _
  rw [foldl_add_read_total]
  rw [show (init_stats tags split).total_reads = 0 from rfl, Nat.zero_add]

theorem add_read_count_mono (read : SamRec) (s : TagStats) (i : Nat) :
    ((s.counts[i]?).map Prod.snd).getD 0
      ≤ (((add_read read s).counts[i]?).map Prod.snd).getD 0 := by
  rw [add_read_counts, List.getElem?_map]
  cases h : s.counts[i]? with
  | none => simp
  | some e =>
    simp only [Option.map_some', Option.getD_some]
    show e.2 ≤ e.2 + hitInc read e.1
    omega

theorem statsAfter_mono (tags : List SearchTag) (split : Bool) (recs : List SamRec)
    (n i : Nat) :
    (((statsAfter tags split recs n).counts[i]?).map Prod.snd).getD 0
      ≤ (((statsAfter tags split recs (n + 1)).counts[i]?).map Prod.snd).getD 0 := by
  by_cases hn : recs.length ≤ n
  · have h1 : recs.take n = recs := List.take_of_length_le hn
    have h2 : recs.take (n + 1) = recs := List.take_of_length_le (by omega)
    unfold statsAfter
    rw [h1, h2]
  · have hlt : n < recs.length := by omega
    have hr : recs[n]? = some recs[n] := List.getElem?_eq_getElem hlt
    unfold statsAfter runStats
    rw [List.take_succ, hr]
    show _ ≤ ((((recs.take n) ++ [recs[n]]).foldl (fun s r => add_read r s)
        (init_stats tags split)).counts[i]?.map Prod.snd).getD 0
    rw [List.foldl_append]
    exact add_read_count_mono recs[n] _ i

theorem add_read_sum (read : SamRec) (s : TagStats) :
    ((add_read read s).counts.map Prod.snd).sum
      ≤ (s.counts.map Prod.snd).sum + s.counts.length := by
  rw [add_read_counts]
  have key : ∀ (l : List (SearchTag × Nat)),
      ((l.map (fun e => (e.1, e.2 + hitInc read e.1))).map Prod.snd).sum
        ≤ (l.map Prod.snd).sum + l.length := by
    intro l
    induction l with
    | nil => simp
    | cons e rest ih =>
      simp only [List.map_cons, List.sum_cons, List.length_cons]
      have := hitInc_le_one read e.1
      omega
  exact key s.counts

theorem add_read_len (read : SamRec) (s : TagStats) :
    (add_read read s).counts.length = s.counts.length := by
  rw [add_read_counts, List.length_map]

theorem foldl_sum_bound : ∀ (recs : List SamRec) (s : TagStats),
    (s.counts.map Prod.snd).sum ≤ s.total_reads * s.counts.length →
    ((recs.foldl (fun s r => add_read r s) s).counts.map Prod.snd).sum
      ≤ (recs.foldl (fun s r => add_read r s) s).total_reads
        * (recs.foldl (fun s r => add_read r s) s).counts.length := by
  intro recs
  induction recs with
  | nil => intro s h; exact h
  | cons r rs ih =>
    intro s h
    rw [List.foldl_cons]
    apply ih
    have h1 := add_read_sum r s
    rw [add_read_total, add_read_len]
    have h2 : (s.total_reads + 1) * s.counts.length
        = s.total_reads * s.counts.length + s.counts.length := by ring
    omega

theorem init_stats_counts_zero (tags : List SearchTag) (split : Bool) :
    ∀ e ∈ (init_stats tags split).counts, e.2 = 0 := by
  have key : ∀ (ts : List SearchTag) (acc : List (SearchTag × Nat)),
      (∀ e ∈ acc, e.2 = 0) →
      ∀ e ∈ ts.foldl
        (fun m t => if m.any (fun e => searchTagEq e.1 t) then m else m ++ [(t, 0)]) acc,
        e.2 = 0 := by
    intro ts
    induction ts with
    | nil => intro acc h; exact h
    | cons t ts ih =>
      intro acc h
      rw [List.foldl_cons]
      apply ih
      intro e he
      split at he
      · exact h e he
      · rcases List.mem_append.mp he with h2 | h2
        · exact h e h2
        · rw [List.mem_singleton.mp h2]
  exact key tags [] (fun e he => absurd he (List.not_mem_nil e))

/-- Claim C6: for every run of the aggregator, `total_reads` equals the
number of admitted records (so the synthetic total row's count equals the
number of admitted records), every per-spec count is monotonically
non-decreasing as records are admitted, and the sum of the counts in the
un-specialised map is at most `total_reads` times the number of distinct
declared tags (the size of that map — `init_stats` deduplicates the
declared specs). -/
theorem tag_stats_invariants (tags : List SearchTag) (split : Bool) (recs : List SamRec) :
    (runStats tags split recs).total_reads = recs.length
    ∧ (totalRow (runStats tags split recs)).count = recs.length
    ∧ (∀ n i : Nat,
        (((statsAfter tags split recs n).counts[i]?).map Prod.snd).getD 0
          ≤ (((statsAfter tags split recs (n + 1)).counts[i]?).map Prod.snd).getD 0)
    ∧ ((runStats tags split recs).counts.map Prod.snd).sum
        ≤ (runStats tags split recs).total_reads
          * (runStats tags split recs).counts.length := by
  refine ⟨runStats_total tags split recs, ?_, statsAfter_mono tags split recs, ?_⟩
  · show (runStats tags split recs).total_reads = recs.length
    exact runStats_total tags split recs
  · apply foldl_sum_bound
    have h0 : ((init_stats tags split).counts.map Prod.snd).sum = 0 := by
      apply List.sum_eq_zero
      intro x hx
      obtain ⟨e, he, rfl⟩ := List.mem_map.mp hx
      exact init_stats_counts_zero tags split e he
    rw [h0, show (init_stats tags split).total_reads = 0 from rfl]
    omega

theorem searchTagEq_refl (a : SearchTag) : searchTagEq a a = true := by
  simp [searchTagEq]

theorem bump_countOf : ∀ (m : List (SearchTag × Nat)) (key : SearchTag),
    countOf (bump m key) key = countOf m key + 1 := by
  intro m key
  induction m with
  | nil =>
    show countOf [(key, 1)] key = countOf [] key + 1
    simp [countOf, List.find?_cons_of_pos, searchTagEq_refl]
  | cons e rest ih =>
    by_cases h : searchTagEq e.1 key = true
    · show countOf (if searchTagEq e.1 key then _ else _) key = _
      rw [if_pos h]
      show countOf ((e.1, e.2 + 1) :: rest) key = countOf (e :: rest) key + 1
      unfold countOf
      simp only [List.find?, h]
    · have hf : searchTagEq e.1 key = false := by simpa using h
      show countOf (if searchTagEq e.1 key then _ else _) key = _
      rw [if_neg (by simp [hf])]
      show countOf (e :: bump rest key) key = countOf (e :: rest) key + 1
      unfold countOf
      simp only [List.find?, hf]
      exact ih

/-- Claim C7: for a declared spec with a pattern in split mode, an
admitted record whose (string-typed) tag value matches the pattern
increments both the un-specialised count and the value-specialised count
keyed by (identifier, raw matched text), while an admitted record whose
value does not match increments neither and adds no value-specialised
entry at all; `total_reads` advances either way.  The match predicate
stands for `std::regex_search` (substring semantics supplied by the
regex engine). -/
theorem pattern_split_counts (tag : SearchTag) (pat : String → Bool)
    (c t : Nat) (m : List (SearchTag × Nat)) (read : SamRec) (v : String)
    (hpat : tag.pattern = some pat)
    (hval : bamAuxGet read tag.id = some (TagValue.str v)) :
    (pat v = true →
      (add_read read ⟨[(tag, c)], some m, t⟩).counts = [(tag, c + 1)]
      ∧ (add_read read ⟨[(tag, c)], some m, t⟩).value_counts
          = some (bump m { tag with value := some v })
      ∧ countOf (bump m { tag with value := some v }) { tag with value := some v }
          = countOf m { tag with value := some v } + 1)
    ∧ (pat v = false →
      (add_read read ⟨[(tag, c)], some m, t⟩).counts = [(tag, c)]
      ∧ (add_read read ⟨[(tag, c)], some m, t⟩).value_counts = some m)
    ∧ (add_read read ⟨[(tag, c)], some m, t⟩).total_reads = t + 1 := by
  have hz : bamAux2Z (TagValue.str v) = some v := rfl
  refine ⟨?_, ?_, rfl⟩
  · intro hv
    refine ⟨?_, ?_, bump_countOf m _⟩
    · rw [add_read_counts]
      show [(tag, c + hitInc read tag)] = [(tag, c + 1)]
      have hh : hitInc read tag = 1 := by simp [hitInc, hval, hpat, hz, hv]
      rw [hh]
    · show (addReadCounts read [(tag, c)] (some m)).2 = _
      simp only [addReadCounts, hval, hpat, hz, hv, if_true, Option.map_some']
  · intro hv
    constructor
    · rw [add_read_counts]
      show [(tag, c + hitInc read tag)] = [(tag, c)]
      have hh : hitInc read tag = 0 := by simp [hitInc, hval, hpat, hz, hv]
      rw [hh]
      rfl
    · show (addReadCounts read [(tag, c)] (some m)).2 = _
      simp only [addReadCounts, hval, hpat, hz, hv, Bool.false_eq_true, if_false]

/-- Witness for C7 at the spec's scenario: pattern `^AAA` (modelled by a
prefix test), record with `CB = "AAAGG"`. -/
theorem pattern_split_counts_witness :
    ((⟨"CB", none, some (fun s => s.toList.take 3 == ['A', 'A', 'A'])⟩ : SearchTag).pattern
        = some (fun s => s.toList.take 3 == ['A', 'A', 'A'])
      ∧ bamAuxGet ⟨"q1", 0, [("CB", TagValue.str "AAAGG")]⟩
          (⟨"CB", none, some (fun s => s.toList.take 3 == ['A', 'A', 'A'])⟩ : SearchTag).id
        = some (TagValue.str "AAAGG"))
    ∧ (((fun s => s.toList.take 3 == ['A', 'A', 'A']) "AAAGG" = true →
        (add_read ⟨"q1", 0, [("CB", TagValue.str "AAAGG")]⟩
            ⟨[((⟨"CB", none, some (fun s => s.toList.take 3 == ['A', 'A', 'A'])⟩ : SearchTag), 0)],
              some [], 0⟩).counts
          = [((⟨"CB", none, some (fun s => s.toList.take 3 == ['A', 'A', 'A'])⟩ : SearchTag), 0 + 1)]
        ∧ (add_read ⟨"q1", 0, [("CB", TagValue.str "AAAGG")]⟩
            ⟨[((⟨"CB", none, some (fun s => s.toList.take 3 == ['A', 'A', 'A'])⟩ : SearchTag), 0)],
              some [], 0⟩).value_counts
          = some (bump []
              { (⟨"CB", none, some (fun s => s.toList.take 3 == ['A', 'A', 'A'])⟩ : SearchTag)
                with value := some "AAAGG" })
        ∧ countOf (bump []
              { (⟨"CB", none, some (fun s => s.toList.take 3 == ['A', 'A', 'A'])⟩ : SearchTag)
                with value := some "AAAGG" })
              { (⟨"CB", none, some (fun s => s.toList.take 3 == ['A', 'A', 'A'])⟩ : SearchTag)
                with value := some "AAAGG" }
          = countOf []
              { (⟨"CB", none, some (fun s => s.toList.take 3 == ['A', 'A', 'A'])⟩ : SearchTag)
                with value := some "AAAGG" } + 1)
      ∧ ((fun s => s.toList.take 3 == ['A', 'A', 'A']) "AAAGG" = false →
        (add_read ⟨"q1", 0, [("CB", TagValue.str "AAAGG")]⟩
            ⟨[((⟨"CB", none, some (fun s => s.toList.take 3 == ['A', 'A', 'A'])⟩ : SearchTag), 0)],
              some [], 0⟩).counts
          = [((⟨"CB", none, some (fun s => s.toList.take 3 == ['A', 'A', 'A'])⟩ : SearchTag), 0)]
        ∧ (add_read ⟨"q1", 0, [("CB", TagValue.str "AAAGG")]⟩
            ⟨[((⟨"CB", none, some (fun s => s.toList.take 3 == ['A', 'A', 'A'])⟩ : SearchTag), 0)],
              some [], 0⟩).value_counts
          = some [])
      ∧ (add_read ⟨"q1", 0, [("CB", TagValue.str "AAAGG")]⟩
          ⟨[((⟨"CB", none, some (fun s => s.toList.take 3 == ['A', 'A', 'A'])⟩ : SearchTag), 0)],
            some [], 0⟩).total_reads = 0 + 1) :=
  ⟨⟨rfl, by decide⟩,
    pattern_split_counts
      ⟨"CB", none, some (fun s => s.toList.take 3 == ['A', 'A', 'A'])⟩
      (fun s => s.toList.take 3 == ['A', 'A', 'A']) 0 0 []
      ⟨"q1", 0, [("CB", TagValue.str "AAAGG")]⟩ "AAAGG" rfl (by decide)⟩
